import Mathlib

/-!
Verification of the task-planning core of `pkg/cluster/actions.go`.

The embedding translates the planner source directly:

* `nodeReplica`, `derivedConfigData` are the data types the planner consumes.
  Their definitions are outside the given excerpt, so the fields below are the
  exact surface the excerpt reads: `Name`, the `ProvisioningOrder()` rank, and
  the seven topology query methods (spec section 2/4.2).  Go's nilable
  `*nodeReplica` results become `Option nodeReplica`.
* The action registry is a name-indexed map; Go's `map[string]func() action`
  with mutex-guarded assignment/lookup becomes a pure map `String → Option
  (Unit → action)` updated functionally (the lock only serializes access and
  has no observable effect on a single planning call).
* `plannedTask.ExecutionOrder` mirrors the `fmt.Sprintf` key exactly; Go's
  `<` on strings (byte-wise lexicographic, which on UTF-8 text coincides with
  code-point order) is modelled by the executable `strLt` below.
* `sort.Sort(plan)` guarantees a permutation of the input in which no later
  element is `Less` than an earlier one; it is modelled by insertion sort over
  the complement of `Less`, which establishes exactly that postcondition.
* Loop counters `i`, `j` from `for i, name := range …` are `Nat`; the
  role-derived rank `ProvisioningOrder` (a small role index per the spec) is
  likewise a `Nat` rendered in decimal by the key, matching `%d` on the
  non-negative ranks the topology derives.
-/

/-- Model of `nodeReplica`: one provisionable node as read by the planner: its
unique `Name` and the role-derived rank returned by `ProvisioningOrder()`. -/
structure nodeReplica where
  Name : String
  ProvisioningOrder : Nat
deriving DecidableEq

/-- Model of `replicaList`: a slice of node replicas. -/
abbrev replicaList := List nodeReplica

/-- Model of `derivedConfigData`: the topology accessor.  The planner only
calls the seven role queries, modelled as fields (`AllReplicas()`,
`ControlPlanes()`, `BootStrapControlPlane()`, `SecondaryControlPlanes()`,
`Workers()`, `ExternalEtcd()`, `ExternalLoadBalancer()`); the three queries
returning a nilable pointer become options. -/
structure derivedConfigData where
  AllReplicas : replicaList
  ControlPlanes : replicaList
  BootStrapControlPlane : Option nodeReplica
  SecondaryControlPlanes : replicaList
  Workers : replicaList
  ExternalEtcd : Option nodeReplica
  ExternalLoadBalancer : Option nodeReplica

/-- Model of `nodeSelector`: a function returning the subset of nodes where
tasks should be planned. -/
abbrev nodeSelector := derivedConfigData → replicaList

/-- Model of `task`: a logical step of an action.  The `Run` callback performs
provisioning I/O on the cluster and is out of scope (spec section 1): the
planner never calls it, only copies it into planned tasks. -/
structure task where
  Description : String
  TargetNodes : nodeSelector

/-- Model of `plannedTask`: a task planned for execution on a given node,
together with the position of its action and task in the request. -/
structure plannedTask where
  Task : task
  Node : nodeReplica
  actionIndex : Nat
  taskIndex : Nat

/-- Model of `executionPlan`: an ordered list of planned tasks. -/
abbrev executionPlan := List plannedTask

/-- Model of `action`: anything exposing an ordered list of tasks via
`Tasks()`. -/
structure action where
  Tasks : List task

/-- Model of the internal registry `actionImpls.impls`: a map from action name
to a builder producing a fresh action instance. -/
abbrev actionRegistry := String → Option (Unit → action)

/-- Model of `registerAction`: stores (overwriting) the builder under the
name. -/
def registerAction (r : actionRegistry) (name : String)
    (actionBuilderFunc : Unit → action) : actionRegistry :=
  fun n => if n = name then some actionBuilderFunc else r n

/-- Model of `getAction`: returns one instance of a registered action, or the
`no Action implementation with name: %s` error. -/
def getAction (r : actionRegistry) (name : String) : Except String action :=
  match r name with
  | some actionBuilderFunc => Except.ok (actionBuilderFunc ())
  | none => Except.error ("no Action implementation with name: " ++ name)

/-- Model of `plannedTask.ExecutionOrder`: the `fmt.Sprintf` composite sort
key, joining rank, node name and the two indices into one string. -/
def plannedTask.ExecutionOrder (p : plannedTask) : String :=
  "Node.ProvisioningOrder: " ++ Nat.repr p.Node.ProvisioningOrder ++
    " - Node.Name: " ++ p.Node.Name ++
    " - actionIndex: " ++ Nat.repr p.actionIndex ++
    " - taskIndex: " ++ Nat.repr p.taskIndex

/-- Lexicographic comparison of character lists: the model of Go's `<` on
strings (byte-wise lexicographic; on UTF-8 text byte order and code-point
order agree). -/
def strLt : List Char → List Char → Bool
  | [], [] => false
  | [], _ :: _ => true
  | _ :: _, [] => false
  | c :: cs, d :: ds => if c < d then true else if d < c then false else strLt cs ds

/-- Model of `executionPlan.Less`: the element comparison used by `sort.Sort`,
comparing the two composite keys as strings. -/
def executionPlan.Less (a b : plannedTask) : Bool :=
  strLt a.ExecutionOrder.data b.ExecutionOrder.data

/-- Postcondition order established by `sort.Sort`: element `b` may follow
element `a` only when `b` is not `Less` than `a`. -/
def planLE (a b : plannedTask) : Prop := executionPlan.Less b a = false

instance : DecidableRel planLE :=
  fun a b => inferInstanceAs (Decidable (executionPlan.Less b a = false))

/-- Inner loop of `newExecutionPlan`: one planned task per target node of the
task, carrying the task, the node and the pair of indices. -/
def expandTask (derived : derivedConfigData) (t : task) (i j : Nat) :
    List plannedTask :=
  (t.TargetNodes derived).map fun n =>
    { Node := n, Task := t, actionIndex := i, taskIndex := j }

/-- Middle loop of `newExecutionPlan`: `for j, t := range actionImpl.Tasks()`,
with `j` starting at the given counter. -/
def expandTasks (derived : derivedConfigData) : List task → Nat → Nat →
    List plannedTask
  | [], _, _ => []
  | t :: ts, i, j => expandTask derived t i j ++ expandTasks derived ts i (j + 1)

/-- Outer loop of `newExecutionPlan`: `for i, name := range actionNames`, with
the early return on a failed lookup. -/
def expandActions (r : actionRegistry) (derived : derivedConfigData) :
    List String → Nat → Except String (List plannedTask)
  | [], _ => Except.ok []
  | name :: rest, i =>
    match getAction r name with
    | Except.error e => Except.error e
    | Except.ok actionImpl =>
      match expandActions r derived rest (i + 1) with
      | Except.error e => Except.error e
      | Except.ok tail => Except.ok (expandTasks derived actionImpl.Tasks i 0 ++ tail)

/-- Model of `newExecutionPlan`: expand every action of the request against
the topology, then sort by the composite key (`sort.Sort` modelled as
insertion sort over the complement of `Less`). -/
def newExecutionPlan (r : actionRegistry) (derived : derivedConfigData)
    (actionNames : List String) : Except String executionPlan :=
  match expandActions r derived actionNames 0 with
  | Except.error e => Except.error e
  | Except.ok plan => Except.ok (List.insertionSort planLE plan)

/-- Model of `selectAllNodes`. -/
def selectAllNodes (cfg : derivedConfigData) : replicaList :=
  cfg.AllReplicas

/-- Model of `selectControlPlaneNodes`. -/
def selectControlPlaneNodes (cfg : derivedConfigData) : replicaList :=
  cfg.ControlPlanes

/-- Model of `selectBootstrapControlPlaneNode`: the Go nil test on the
accessor result becomes a match on the option. -/
def selectBootstrapControlPlaneNode (cfg : derivedConfigData) : replicaList :=
  match cfg.BootStrapControlPlane with
  | some n => [n]
  | none => []

/-- Model of `selectSecondaryControlPlaneNodes`. -/
def selectSecondaryControlPlaneNodes (cfg : derivedConfigData) : replicaList :=
  cfg.SecondaryControlPlanes

/-- Model of `selectWorkerNodes`. -/
def selectWorkerNodes (cfg : derivedConfigData) : replicaList :=
  cfg.Workers

/-- Model of `selectExternalEtcdNode`. -/
def selectExternalEtcdNode (cfg : derivedConfigData) : replicaList :=
  match cfg.ExternalEtcd with
  | some n => [n]
  | none => []

/-- Model of `selectExternalLoadBalancerNode`. -/
def selectExternalLoadBalancerNode (cfg : derivedConfigData) : replicaList :=
  match cfg.ExternalLoadBalancer with
  | some n => [n]
  | none => []

/-! Concrete topologies, actions and registries used by the counterexamples
and witnesses below.  `wCfg` is the example scenario of spec section 8: one
bootstrap control-plane node of rank 1 and two workers of rank 2. -/

/-- Bootstrap control-plane node of the witness topology. -/
def wNodeCp : nodeReplica := { Name := "cp", ProvisioningOrder := 1 }

/-- First worker node of the witness topology. -/
def wNodeW1 : nodeReplica := { Name := "w1", ProvisioningOrder := 2 }

/-- Second worker node of the witness topology. -/
def wNodeW2 : nodeReplica := { Name := "w2", ProvisioningOrder := 2 }

/-- Witness topology: one bootstrap control plane and two workers. -/
def wCfg : derivedConfigData :=
  { AllReplicas := [wNodeCp, wNodeW1, wNodeW2]
    ControlPlanes := [wNodeCp]
    BootStrapControlPlane := some wNodeCp
    SecondaryControlPlanes := []
    Workers := [wNodeW1, wNodeW2]
    ExternalEtcd := none
    ExternalLoadBalancer := none }

/-- Witness task targeting every node. -/
def wTaskAll : task := { Description := "provision", TargetNodes := selectAllNodes }

/-- Witness task targeting only the bootstrap control plane. -/
def wTaskBoot : task := { Description := "init", TargetNodes := selectBootstrapControlPlaneNode }

/-- Witness action with a single all-nodes task. -/
def wActionCreate : action := { Tasks := [wTaskAll] }

/-- Witness action with a single bootstrap-only task. -/
def wActionInit : action := { Tasks := [wTaskBoot] }

/-- Witness registry holding the two witness actions. -/
def wRegistry : actionRegistry :=
  registerAction (registerAction (fun _ => none) "create" (fun _ => wActionCreate))
    "init" (fun _ => wActionInit)

/-- The plan produced for `["create", "init"]` on the witness topology:
bootstrap node first (both its actions in request order), then the workers by
name. -/
def wPlan : executionPlan :=
  [ { Task := wTaskAll, Node := wNodeCp, actionIndex := 0, taskIndex := 0 }
  , { Task := wTaskBoot, Node := wNodeCp, actionIndex := 1, taskIndex := 0 }
  , { Task := wTaskAll, Node := wNodeW1, actionIndex := 0, taskIndex := 0 }
  , { Task := wTaskAll, Node := wNodeW2, actionIndex := 0, taskIndex := 0 } ]

/-- Node of rank 2 for the priority-ordering counterexample. -/
def cexNodeA : nodeReplica := { Name := "a", ProvisioningOrder := 2 }

/-- Node of rank 10 for the priority-ordering counterexample. -/
def cexNodeB : nodeReplica := { Name := "b", ProvisioningOrder := 10 }

/-- Topology whose two nodes have ranks 2 and 10. -/
def cexCfgRank : derivedConfigData :=
  { AllReplicas := [cexNodeA, cexNodeB]
    ControlPlanes := []
    BootStrapControlPlane := none
    SecondaryControlPlanes := []
    Workers := []
    ExternalEtcd := none
    ExternalLoadBalancer := none }

/-- Registry with a single action whose single task targets all nodes. -/
def cexRegistryCreate : actionRegistry :=
  registerAction (fun _ => none) "create"
    (fun _ => { Tasks := [{ Description := "all", TargetNodes := selectAllNodes }] })

/-- Action consisting of eleven copies of the bootstrap-only task, so that
task indices 0 through 10 occur. -/
def cexActionBig : action := { Tasks := List.replicate 11 wTaskBoot }

/-- Registry holding the eleven-task action. -/
def cexRegistryBig : actionRegistry :=
  registerAction (fun _ => none) "big" (fun _ => cexActionBig)

/-- Node named "x" for the name-tiebreak counterexample. -/
def cexNodeX : nodeReplica := { Name := "x", ProvisioningOrder := 0 }

/-- Node whose name extends "x" with a control character smaller than the
space that follows the name inside the composite key. -/
def cexNodeXc : nodeReplica := { Name := "x\x01", ProvisioningOrder := 0 }

/-- Topology with two equal-rank nodes named "x" and "x\x01". -/
def cexCfgName : derivedConfigData :=
  { AllReplicas := [cexNodeX, cexNodeXc]
    ControlPlanes := []
    BootStrapControlPlane := none
    SecondaryControlPlanes := []
    Workers := []
    ExternalEtcd := none
    ExternalLoadBalancer := none }

/-! Proof-layer definitions: the four literal separators of the composite key
as character lists, a structural description of decimal digit lists, and a
digits-to-value function used to show decimal rendering is injective. -/

/-- Characters of the leading key segment. -/
def sepRank : List Char := ("Node.ProvisioningOrder: " : String).data

/-- Characters of the separator preceding the node name. -/
def sepName : List Char := (" - Node.Name: " : String).data

/-- Characters of the separator preceding the action index. -/
def sepAction : List Char := (" - actionIndex: " : String).data

/-- Characters of the separator preceding the task index. -/
def sepTask : List Char := (" - taskIndex: " : String).data

/-- Structural form of the decimal digit list of a natural number. -/
def natDigits (n : Nat) : List Char :=
  if _h : n < 10 then [Nat.digitChar n]
  else natDigits (n / 10) ++ [Nat.digitChar (n % 10)]
decreasing_by exact Nat.div_lt_self (by omega) (by omega)

/-- Value of a decimal digit list, folded onto the accumulator `a`. -/
def valFrom (a : Nat) (cs : List Char) : Nat :=
  cs.foldl (fun x c => 10 * x + (c.toNat - 48)) a

/-- Two planned tasks that disagree on node name, action index or task index:
the configurations in which the composite key tells entries apart. -/
def planDistinct (a b : plannedTask) : Prop :=
  ¬ (a.Node.Name = b.Node.Name ∧ a.actionIndex = b.actionIndex ∧
    a.taskIndex = b.taskIndex)

/-! Lemmas about `strLt`, the model of Go string comparison. -/

/-- Comparison of a list with itself yields false. -/
theorem strLt_irrefl : ∀ u : List Char, strLt u u = false
  | [] => rfl
  | c :: cs => by
    show (if c < c then true else if c < c then false else strLt cs cs) = false
    rw [if_neg (lt_irrefl c), if_neg (lt_irrefl c)]
    exact strLt_irrefl cs

/-- Comparison is asymmetric. -/
theorem strLt_asymm : ∀ {u v : List Char}, strLt u v = true → strLt v u = false
  | [], [], h => by simp [strLt] at h
  | [], _ :: _, _ => rfl
  | _ :: _, [], h => by simp [strLt] at h
  | c :: cs, d :: ds, h => by
    by_cases hcd : c < d
    · show (if d < c then true else if c < d then false else strLt ds cs) = false
      rw [if_neg (lt_asymm hcd), if_pos hcd]
    · by_cases hdc : d < c
      · exfalso
        have he : strLt (c :: cs) (d :: ds) = false := by
          show (if c < d then true else if d < c then false else strLt cs ds) = false
          rw [if_neg hcd, if_pos hdc]
        rw [he] at h
        exact Bool.noConfusion h
      · have h' : strLt cs ds = true := by
          have he : strLt (c :: cs) (d :: ds) = strLt cs ds := by
            show (if c < d then true else if d < c then false else strLt cs ds) = _
            rw [if_neg hcd, if_neg hdc]
          rw [he] at h
          exact h
        show (if d < c then true else if c < d then false else strLt ds cs) = false
        rw [if_neg hdc, if_neg hcd]
        exact strLt_asymm h'

/-- The complement of the comparison is transitive. -/
theorem strLt_false_trans : ∀ {u v w : List Char},
    strLt u v = false → strLt v w = false → strLt u w = false
  | [], v, w, h1, h2 => by
    cases v with
    | nil => exact h2
    | cons d ds => exact Bool.noConfusion h1
  | _ :: _, [], w, h1, h2 => by
    cases w with
    | nil => rfl
    | cons e es => exact Bool.noConfusion h2
  | c :: cs, d :: ds, [], _, _ => rfl
  | c :: cs, d :: ds, e :: es, h1, h2 => by
    by_cases hcd : c < d
    · exfalso
      have he : strLt (c :: cs) (d :: ds) = true := by
        show (if c < d then true else if d < c then false else strLt cs ds) = true
        rw [if_pos hcd]
      rw [he] at h1
      exact Bool.noConfusion h1
    · by_cases hde : d < e
      · exfalso
        have he : strLt (d :: ds) (e :: es) = true := by
          show (if d < e then true else if e < d then false else strLt ds es) = true
          rw [if_pos hde]
        rw [he] at h2
        exact Bool.noConfusion h2
      · have hdc : d ≤ c := not_lt.mp hcd
        have hed : e ≤ d := not_lt.mp hde
        have hce : ¬ c < e := not_lt.mpr (le_trans hed hdc)
        show (if c < e then true else if e < c then false else strLt cs es) = false
        rw [if_neg hce]
        by_cases hec : e < c
        · rw [if_pos hec]
        · rw [if_neg hec]
          have hcd' : c = d := le_antisymm (le_trans (not_lt.mp hec) hed) hdc
          have hde' : d = e := le_antisymm (le_trans hdc (not_lt.mp hec)) hed
          have h1' : strLt cs ds = false := by
            have he : strLt (c :: cs) (d :: ds) = strLt cs ds := by
              show (if c < d then true else if d < c then false else strLt cs ds) = _
              rw [if_neg hcd, if_neg (by rw [hcd']; exact lt_irrefl d)]
            rw [he] at h1
            exact h1
          have h2' : strLt ds es = false := by
            have he : strLt (d :: ds) (e :: es) = strLt ds es := by
              show (if d < e then true else if e < d then false else strLt ds es) = _
              rw [if_neg hde, if_neg (by rw [hde']; exact lt_irrefl e)]
            rw [he] at h2
            exact h2
          exact strLt_false_trans h1' h2'

/-- Two lists agreeing on a common front compare by the first difference. -/
theorem strLt_append_cons {c d : Char} (h : c < d) :
    ∀ (p u v : List Char), strLt (p ++ c :: u) (p ++ d :: v) = true
  | [], u, v => by
    show (if c < d then true else if d < c then false else strLt u v) = true
    rw [if_pos h]
  | x :: p', u, v => by
    show (if x < x then true else if x < x then false
      else strLt (p' ++ c :: u) (p' ++ d :: v)) = true
    rw [if_neg (lt_irrefl x), if_neg (lt_irrefl x)]
    exact strLt_append_cons h p' u v

/-- A strict comparison between lists of which neither is an initial segment
of the other happens at a first differing character. -/
theorem strLt_decomp : ∀ {u v : List Char}, strLt u v = true → ¬ u <+: v →
    ∃ (q u' v' : List Char) (c d : Char),
      u = q ++ c :: u' ∧ v = q ++ d :: v' ∧ c < d
  | [], v, _, hnp => absurd ⟨v, rfl⟩ hnp
  | _ :: _, [], h, _ => by simp [strLt] at h
  | c :: cs, d :: ds, h, hnp => by
    by_cases hcd : c < d
    · exact ⟨[], cs, ds, c, d, rfl, rfl, hcd⟩
    · by_cases hdc : d < c
      · exfalso
        have he : strLt (c :: cs) (d :: ds) = false := by
          show (if c < d then true else if d < c then false else strLt cs ds) = false
          rw [if_neg hcd, if_pos hdc]
        rw [he] at h
        exact Bool.noConfusion h
      · have hc : c = d := le_antisymm (not_lt.mp hdc) (not_lt.mp hcd)
        have h' : strLt cs ds = true := by
          have he : strLt (c :: cs) (d :: ds) = strLt cs ds := by
            show (if c < d then true else if d < c then false else strLt cs ds) = _
            rw [if_neg hcd, if_neg hdc]
          rw [he] at h
          exact h
        have hnp' : ¬ cs <+: ds := fun hp => hnp (by
          rw [hc]
          exact List.cons_prefix_cons.mpr ⟨rfl, hp⟩)
        have ⟨q, u', v', c', d', e1, e2, hlt⟩ := strLt_decomp h' hnp'
        exact ⟨c :: q, u', v', c', d',
          by rw [List.cons_append, e1],
          by rw [hc, List.cons_append, e2], hlt⟩

/-! Lemmas about the decimal rendering used by the composite key. -/

/-- Core's fuelled digit generator agrees with the structural digit list
whenever the fuel exceeds the number. -/
theorem toDigitsCore_eq_natDigits : ∀ (fuel n : Nat) (acc : List Char),
    n < fuel → Nat.toDigitsCore 10 fuel n acc = natDigits n ++ acc := by
  intro fuel
  induction fuel with
  | zero => intro n acc h; exact absurd h (Nat.not_lt_zero n)
  | succ f ih =>
    intro n acc h
    show (if n / 10 = 0 then Nat.digitChar (n % 10) :: acc
      else Nat.toDigitsCore 10 f (n / 10) (Nat.digitChar (n % 10) :: acc)) =
        natDigits n ++ acc
    by_cases h0 : n / 10 = 0
    · rw [if_pos h0]
      have hn : n < 10 := by omega
      rw [natDigits, dif_pos hn, Nat.mod_eq_of_lt hn]
      rfl
    · rw [if_neg h0]
      have hpos : 0 < n := by omega
      have hdiv : n / 10 < n := Nat.div_lt_self hpos (by omega)
      rw [ih (n / 10) _ (by omega)]
      conv_rhs => rw [natDigits, dif_neg (by omega : ¬ n < 10)]
      rw [List.append_assoc]
      rfl

/-- The character data of `Nat.repr` is the structural digit list. -/
theorem repr_data (n : Nat) : (Nat.repr n).data = natDigits n := by
  show (Nat.toDigits 10 n).asString.data = natDigits n
  rw [Nat.toDigits, toDigitsCore_eq_natDigits (n + 1) n [] (Nat.lt_succ_self n)]
  show natDigits n ++ [] = natDigits n
  exact List.append_nil _

/-- Digit characters of values below ten are decimal digits. -/
theorem digitChar_isDigit : ∀ m, m < 10 → (Nat.digitChar m).isDigit = true := by
  decide

/-- Digit characters of values below ten decode back to the value. -/
theorem digitChar_val : ∀ m, m < 10 → (Nat.digitChar m).toNat - 48 = m := by
  decide

/-- Digit characters compare like the digits they render. -/
theorem digitChar_lt {a b : Nat} (ha : a ≤ 9) (hb : b ≤ 9) (h : a < b) :
    Nat.digitChar a < Nat.digitChar b := by
  have key : ∀ x, x < 10 → ∀ y, y < 10 → (x < y → Nat.digitChar x < Nat.digitChar y) := by
    decide
  exact key a (by omega) b (by omega) h

/-- Digit lists contain only decimal digits. -/
theorem natDigits_digit : ∀ (n : Nat), ∀ c ∈ natDigits n, c.isDigit = true := by
  intro n
  induction n using Nat.strong_induction_on with
  | _ n ih =>
    intro c hc
    rw [natDigits] at hc
    split at hc
    case isTrue h =>
      rw [List.mem_singleton] at hc
      rw [hc]
      exact digitChar_isDigit n h
    case isFalse h =>
      rw [List.mem_append] at hc
      rcases hc with hc | hc
      · exact ih (n / 10) (Nat.div_lt_self (by omega) (by omega)) c hc
      · rw [List.mem_singleton] at hc
        rw [hc]
        exact digitChar_isDigit (n % 10) (Nat.mod_lt n (by omega))

/-- Digit lists are never empty. -/
theorem natDigits_ne_nil (n : Nat) : natDigits n ≠ [] := by
  rw [natDigits]
  split
  · exact List.cons_ne_nil _ _
  · simp

/-- A number at most nine renders as the single digit character. -/
theorem natDigits_single {n : Nat} (h : n ≤ 9) : natDigits n = [Nat.digitChar n] := by
  rw [natDigits]
  exact dif_pos (by omega)

/-- Folding the digit list of `n` onto accumulator `a` yields `a` shifted by
the digit count, plus `n`. -/
theorem valFrom_natDigits : ∀ (n a : Nat),
    valFrom a (natDigits n) = a * 10 ^ (natDigits n).length + n := by
  intro n
  induction n using Nat.strong_induction_on with
  | _ n ih =>
    intro a
    rw [natDigits]
    split
    case isTrue h =>
      show 10 * a + ((Nat.digitChar n).toNat - 48) = a * 10 ^ 1 + n
      rw [digitChar_val n h]
      ring_nf
    case isFalse h =>
      have hdiv : n / 10 < n := Nat.div_lt_self (by omega) (by omega)
      rw [valFrom, List.foldl_append]
      show 10 * (valFrom a (natDigits (n / 10))) + ((Nat.digitChar (n % 10)).toNat - 48) = _
      rw [ih (n / 10) hdiv a, digitChar_val (n % 10) (Nat.mod_lt n (by omega))]
      rw [List.length_append]
      have hdm : 10 * (n / 10) + n % 10 = n := Nat.div_add_mod n 10
      set k := (natDigits (n / 10)).length
      show 10 * (a * 10 ^ k + n / 10) + n % 10 = a * 10 ^ (k + [Nat.digitChar (n % 10)].length) + n
      show 10 * (a * 10 ^ k + n / 10) + n % 10 = a * 10 ^ (k + 1) + n
      have expand : 10 * (a * 10 ^ k + n / 10) + n % 10 =
          a * (10 ^ k * 10) + (10 * (n / 10) + n % 10) := by ring
      rw [expand, hdm, ← pow_succ]

/-- Decimal rendering is injective. -/
theorem natDigits_inj {m n : Nat} (h : natDigits m = natDigits n) : m = n := by
  have hm := valFrom_natDigits m 0
  have hn := valFrom_natDigits n 0
  rw [h] at hm
  simp only [zero_mul, zero_add] at hm hn
  omega

/-- A decimal digit is not a space and not a colon. -/
theorem isDigit_ne_space_colon {c : Char} (h : c.isDigit = true) :
    c ≠ ' ' ∧ c ≠ ':' := by
  constructor
  · intro he
    rw [he] at h
    exact absurd h (by decide)
  · intro he
    rw [he] at h
    exact absurd h (by decide)

/-- Equal concatenations of a digit run, a space and a tail have equal runs
and equal tails. -/
theorem digit_run_append_eq : ∀ (u₁ u₂ s₁ s₂ : List Char),
    (∀ c ∈ u₁, c.isDigit = true) → (∀ c ∈ u₂, c.isDigit = true) →
    u₁ ++ ' ' :: s₁ = u₂ ++ ' ' :: s₂ → u₁ = u₂ ∧ s₁ = s₂
  | [], [], _, _, _, _, e => ⟨rfl, by injection e⟩
  | [], d :: ds, _, _, _, h₂, e => by
    exfalso
    have hd := h₂ d (List.mem_cons_self d ds)
    have hds : d = ' ' := ((List.cons.inj e).1).symm
    rw [hds] at hd
    exact absurd hd (by decide)
  | c :: cs, [], _, _, h₁, _, e => by
    exfalso
    have hc := h₁ c (List.mem_cons_self c cs)
    have hcs : c = ' ' := (List.cons.inj e).1
    rw [hcs] at hc
    exact absurd hc (by decide)
  | c :: cs, d :: ds, s₁, s₂, h₁, h₂, e => by
    have e1 : c = d := (List.cons.inj e).1
    have e2 : cs ++ ' ' :: s₁ = ds ++ ' ' :: s₂ := (List.cons.inj e).2
    have ⟨hu, hs⟩ := digit_run_append_eq cs ds s₁ s₂
      (fun x hx => h₁ x (List.mem_cons_of_mem c hx))
      (fun x hx => h₂ x (List.mem_cons_of_mem d hx)) e2
    exact ⟨by rw [e1, hu], hs⟩

/-- Character data of the composite key, split at its four segments. -/
theorem executionOrder_data (p : plannedTask) :
    (p.ExecutionOrder).data =
      sepRank ++ (natDigits p.Node.ProvisioningOrder ++ (sepName ++ (p.Node.Name.data ++
        (sepAction ++ (natDigits p.actionIndex ++ (sepTask ++ natDigits p.taskIndex)))))) := by
  simp only [plannedTask.ExecutionOrder, String.data_append, repr_data,
    sepRank, sepName, sepAction, sepTask, List.append_assoc]

/-! Lemmas about the sort step of `newExecutionPlan`. -/

instance : IsTotal plannedTask planLE :=
  ⟨fun a b => by
    cases h : executionPlan.Less b a with
    | false => exact Or.inl h
    | true => exact Or.inr (strLt_asymm h)⟩

instance : IsTrans plannedTask planLE :=
  ⟨fun _ _ _ hab hbc => strLt_false_trans hbc hab⟩

/-- Successful planning means: the expansion succeeded and the result is its
insertion sort. -/
theorem newExecutionPlan_ok {r : actionRegistry} {cfg : derivedConfigData}
    {names : List String} {plan : executionPlan}
    (h : newExecutionPlan r cfg names = Except.ok plan) :
    ∃ l, expandActions r cfg names 0 = Except.ok l ∧
      plan = List.insertionSort planLE l := by
  unfold newExecutionPlan at h
  cases he : expandActions r cfg names 0 with
  | error e => rw [he] at h; exact Except.noConfusion h
  | ok l =>
    rw [he] at h
    exact ⟨l, rfl, (Except.ok.inj h).symm⟩

/-- A successful plan is ordered: no later entry is `Less` than an earlier
one. -/
theorem plan_pairwise {r : actionRegistry} {cfg : derivedConfigData}
    {names : List String} {plan : executionPlan}
    (h : newExecutionPlan r cfg names = Except.ok plan) :
    List.Pairwise planLE plan := by
  obtain ⟨l, -, rfl⟩ := newExecutionPlan_ok h
  exact List.sorted_insertionSort planLE l

/-- A successful plan is a permutation of the expansion. -/
theorem plan_perm {r : actionRegistry} {cfg : derivedConfigData}
    {names : List String} {plan : executionPlan}
    (h : newExecutionPlan r cfg names = Except.ok plan) :
    ∃ l, expandActions r cfg names 0 = Except.ok l ∧ plan.Perm l := by
  obtain ⟨l, hl, rfl⟩ := newExecutionPlan_ok h
  exact ⟨l, hl, List.perm_insertionSort planLE l⟩

/-- In an ordered plan, an entry whose key is strictly below another entry's
key is positioned strictly before it. -/
theorem key_lt_position {plan : executionPlan}
    (hs : List.Pairwise planLE plan) {p q : Nat}
    (hp : p < plan.length) (hq : q < plan.length)
    (hk : strLt (plan[p].ExecutionOrder).data (plan[q].ExecutionOrder).data = true) :
    p < q := by
  rcases lt_trichotomy p q with h | h | h
  · exact h
  · exfalso
    subst h
    rw [strLt_irrefl] at hk
    exact Bool.noConfusion hk
  · exfalso
    have hle : planLE plan[q] plan[p] :=
      List.pairwise_iff_getElem.mp hs q p hq hp h
    have : strLt (plan[p].ExecutionOrder).data (plan[q].ExecutionOrder).data = false := hle
    rw [this] at hk
    exact Bool.noConfusion hk

/-- Prepending a common segment preserves a strict comparison. -/
theorem strLt_append_left : ∀ (p : List Char) {u v : List Char},
    strLt u v = true → strLt (p ++ u) (p ++ v) = true
  | [], _, _, h => h
  | x :: p', u, v, h => by
    show (if x < x then true else if x < x then false
      else strLt (p' ++ u) (p' ++ v)) = true
    rw [if_neg (lt_irrefl x), if_neg (lt_irrefl x)]
    exact strLt_append_left p' h

/-- Lists whose heads compare strictly do so as wholes. -/
theorem strLt_cons_lt {c d : Char} (h : c < d) (u v : List Char) :
    strLt (c :: u) (d :: v) = true := by
  show (if c < d then true else if d < c then false else strLt u v) = true
  rw [if_pos h]

/-- C1 (amended): in every successful plan, entries whose ranks are both at
most nine (single decimal digit) are ordered by strictly increasing rank: the
composite key compares the rendered digit characters, which agree with the
numeric order exactly in that range. -/
theorem C1_priority_order_amended
    (r : actionRegistry) (cfg : derivedConfigData) (names : List String)
    (plan : executionPlan) (h : newExecutionPlan r cfg names = Except.ok plan)
    (p q : Nat) (hp : p < plan.length) (hq : q < plan.length)
    (h9p : plan[p].Node.ProvisioningOrder ≤ 9)
    (h9q : plan[q].Node.ProvisioningOrder ≤ 9)
    (hlt : plan[p].Node.ProvisioningOrder < plan[q].Node.ProvisioningOrder) :
    p < q := by
  apply key_lt_position (plan_pairwise h) hp hq
  rw [executionOrder_data, executionOrder_data,
    natDigits_single h9p, natDigits_single h9q]
  exact strLt_append_left sepRank (strLt_cons_lt (digitChar_lt h9p h9q hlt) _ _)

/-- C1 counterexample: with ranks 2 and 10 in the topology, the rank-10 node's
entry is emitted first, because the key compares "10" below "2"
lexicographically; so a smaller rank does not in general come first. -/
theorem C1_counterexample :
    (newExecutionPlan cexRegistryCreate cexCfgRank ["create"]).map
        (fun pl => pl.map fun pt => pt.Node.ProvisioningOrder) =
      Except.ok [10, 2] ∧ (2 : Nat) < 10 :=
  ⟨rfl, by omega⟩

/-- C1 witness: on the spec section 8 scenario the amended theorem places the
rank-1 bootstrap entry (position 0) before a rank-2 worker entry
(position 2). -/
theorem C1_witness :
    newExecutionPlan wRegistry wCfg ["create", "init"] = Except.ok wPlan ∧
      (0 : Nat) < 2 :=
  ⟨rfl, C1_priority_order_amended wRegistry wCfg ["create", "init"] wPlan rfl 0 2
    (by decide) (by decide) (by decide) (by decide) (by decide)⟩

/-- C2 (amended): in every successful plan, among entries bound to the same
node, smaller action index comes first provided both action indices are at
most nine, and for equal action indices smaller task index comes first
provided both task indices are at most nine; beyond nine the decimal rendering
of the index breaks the lexicographic comparison. -/
theorem C2_action_task_order_amended
    (r : actionRegistry) (cfg : derivedConfigData) (names : List String)
    (plan : executionPlan) (h : newExecutionPlan r cfg names = Except.ok plan)
    (p q : Nat) (hp : p < plan.length) (hq : q < plan.length)
    (hnode : plan[p].Node = plan[q].Node) :
    ((plan[p].actionIndex < plan[q].actionIndex ∧ plan[p].actionIndex ≤ 9 ∧
        plan[q].actionIndex ≤ 9) → p < q) ∧
      ((plan[p].actionIndex = plan[q].actionIndex ∧
        plan[p].taskIndex < plan[q].taskIndex ∧ plan[p].taskIndex ≤ 9 ∧
        plan[q].taskIndex ≤ 9) → p < q) := by
  constructor
  · rintro ⟨hlt, h9p, h9q⟩
    apply key_lt_position (plan_pairwise h) hp hq
    rw [executionOrder_data, executionOrder_data, hnode,
      natDigits_single h9p, natDigits_single h9q]
    exact strLt_append_left sepRank (strLt_append_left _ (strLt_append_left sepName
      (strLt_append_left _ (strLt_append_left sepAction
        (strLt_cons_lt (digitChar_lt h9p h9q hlt) _ _)))))
  · rintro ⟨hieq, hlt, h9p, h9q⟩
    apply key_lt_position (plan_pairwise h) hp hq
    rw [executionOrder_data, executionOrder_data, hnode, hieq,
      natDigits_single h9p, natDigits_single h9q]
    exact strLt_append_left sepRank (strLt_append_left _ (strLt_append_left sepName
      (strLt_append_left _ (strLt_append_left sepAction (strLt_append_left _
        (strLt_append_left sepTask
          (strLt_cons_lt (digitChar_lt h9p h9q hlt) _ _)))))))

/-- C2 counterexample: one action with eleven tasks on a single node is
planned in task order 0, 1, 10, 2, …, 9: the entry for task index 10 precedes
the entry for task index 2 because "10" compares below "2". -/
theorem C2_counterexample :
    (newExecutionPlan cexRegistryBig wCfg ["big"]).map
        (fun pl => pl.map fun pt => pt.taskIndex) =
      Except.ok [0, 1, 10, 2, 3, 4, 5, 6, 7, 8, 9] ∧ (2 : Nat) < 10 :=
  ⟨rfl, by omega⟩

/-- C2 witness: on the spec section 8 scenario, the two bootstrap-node entries
(positions 0 and 1) keep the request's action order 0 before 1. -/
theorem C2_witness :
    newExecutionPlan wRegistry wCfg ["create", "init"] = Except.ok wPlan ∧
      (0 : Nat) < 1 :=
  ⟨rfl, (C2_action_task_order_amended wRegistry wCfg ["create", "init"] wPlan rfl
      0 1 (by decide) (by decide) (by decide)).1 ⟨by decide, by decide, by decide⟩⟩

/-- C3 (amended): in every successful plan, among entries of equal rank,
lexicographically smaller node name comes first provided the smaller name is
not a strict initial segment of the larger one; for such segment pairs the
characters the key appends after the name can reverse the comparison. -/
theorem C3_name_tiebreak_amended
    (r : actionRegistry) (cfg : derivedConfigData) (names : List String)
    (plan : executionPlan) (h : newExecutionPlan r cfg names = Except.ok plan)
    (p q : Nat) (hp : p < plan.length) (hq : q < plan.length)
    (hord : plan[p].Node.ProvisioningOrder = plan[q].Node.ProvisioningOrder)
    (hname : strLt plan[p].Node.Name.data plan[q].Node.Name.data = true)
    (hpre : ¬ plan[p].Node.Name.data <+: plan[q].Node.Name.data) :
    p < q := by
  apply key_lt_position (plan_pairwise h) hp hq
  obtain ⟨t, u', v', c, d, e1, e2, hcd⟩ := strLt_decomp hname hpre
  rw [executionOrder_data, executionOrder_data, hord, e1, e2]
  apply strLt_append_left sepRank
  apply strLt_append_left _
  apply strLt_append_left sepName
  rw [List.append_assoc, List.append_assoc, List.cons_append, List.cons_append]
  exact strLt_append_left t (strLt_cons_lt hcd _ _)

/-- C3 counterexample: two equal-rank nodes named "x" and "x\x01" are planned
with "x\x01" first although "x" is the lexicographically smaller name: after
the shorter name the key continues with a space, which compares above the
control character. -/
theorem C3_counterexample :
    (newExecutionPlan cexRegistryCreate cexCfgName ["create"]).map
        (fun pl => pl.map fun pt => pt.Node.Name) =
      Except.ok ["x\x01", "x"] ∧ strLt "x".data "x\x01".data = true :=
  ⟨rfl, by decide⟩

/-- C3 witness: on the spec section 8 scenario the equal-rank workers "w1" and
"w2" (positions 2 and 3) are ordered by name. -/
theorem C3_witness :
    newExecutionPlan wRegistry wCfg ["create", "init"] = Except.ok wPlan ∧
      (2 : Nat) < 3 :=
  ⟨rfl, C3_name_tiebreak_amended wRegistry wCfg ["create", "init"] wPlan rfl 2 3
    (by decide) (by decide) (by decide) (by decide) (by decide)⟩

/-- Expansion aborts at the first name with no registered builder and reports
that name. -/
theorem expandActions_error {r : actionRegistry} {cfg : derivedConfigData}
    (nm : String) (hnm : r nm = none) :
    ∀ (names₁ names₂ : List String) (i : Nat),
      (∀ m ∈ names₁, ∃ f, r m = some f) →
      expandActions r cfg (names₁ ++ nm :: names₂) i =
        Except.error ("no Action implementation with name: " ++ nm)
  | [], names₂, i, _ => by
    show expandActions r cfg (nm :: names₂) i = _
    simp only [expandActions, getAction, hnm]
  | m :: rest, names₂, i, hreg => by
    obtain ⟨f, hf⟩ := hreg m (List.mem_cons_self m rest)
    have ih := @expandActions_error r cfg nm hnm rest names₂ (i + 1)
      (fun x hx => hreg x (List.mem_cons_of_mem m hx))
    show expandActions r cfg (m :: (rest ++ nm :: names₂)) i = _
    simp only [expandActions, getAction, hf, ih]

/-- C5: planning a request that contains a name with no registered builder
fails with the error naming the first such action, and returns no plan at all
(the `Except` result carries either a plan or an error, never both). -/
theorem C5_unknown_action
    (r : actionRegistry) (cfg : derivedConfigData) (names₁ names₂ : List String)
    (nm : String) (hreg : ∀ m ∈ names₁, ∃ f, r m = some f) (hnm : r nm = none) :
    newExecutionPlan r cfg (names₁ ++ nm :: names₂) =
      Except.error ("no Action implementation with name: " ++ nm) := by
  unfold newExecutionPlan
  rw [expandActions_error nm hnm names₁ names₂ 0 hreg]

/-- C5 witness: requesting `["create", "missing", "init"]` against the witness
registry fails naming "missing" even though "init" is registered. -/
theorem C5_witness :
    newExecutionPlan wRegistry wCfg (["create"] ++ "missing" :: ["init"]) =
      Except.error ("no Action implementation with name: " ++ "missing") :=
  C5_unknown_action wRegistry wCfg ["create"] ["init"] "missing"
    (by
      intro m hm
      rw [List.mem_singleton] at hm
      subst hm
      exact ⟨fun _ => wActionCreate, rfl⟩)
    rfl

/-- C6: the planner is a deterministic function of registry, topology and
request: two successful invocations on the same inputs return the same plan.
The embedding is pure by construction, mirroring the code, which draws no
randomness, never iterates over the registry map (only keyed lookups), and
sorts with a deterministic algorithm. -/
theorem C6_determinism (r : actionRegistry) (cfg : derivedConfigData)
    (names : List String) (p₁ p₂ : executionPlan)
    (h₁ : newExecutionPlan r cfg names = Except.ok p₁)
    (h₂ : newExecutionPlan r cfg names = Except.ok p₂) : p₁ = p₂ := by
  rw [h₁] at h₂
  exact Except.ok.inj h₂

/-- C6 witness: two plannings of the witness request agree. -/
theorem C6_witness :
    newExecutionPlan wRegistry wCfg ["create", "init"] = Except.ok wPlan ∧
      wPlan = wPlan :=
  ⟨rfl, C6_determinism wRegistry wCfg ["create", "init"] wPlan wPlan rfl rfl⟩

/-- C8: registering a second builder under an already-used name overwrites the
earlier mapping rather than failing: lookup returns an instance produced by
the most recently registered builder. -/
theorem C8_last_registration_wins (r : actionRegistry) (name : String)
    (f g : Unit → action) :
    getAction (registerAction (registerAction r name f) name g) name =
      Except.ok (g ()) := by
  simp [getAction, registerAction]

/-- C9: each singleton selector returns the one-element list holding the node
the topology accessor reports, and the empty list when the accessor reports
none; the selectors are total functions, so no error outcome exists. -/
theorem C9_singleton_selectors (cfg : derivedConfigData) :
    selectBootstrapControlPlaneNode cfg = cfg.BootStrapControlPlane.toList ∧
      selectExternalEtcdNode cfg = cfg.ExternalEtcd.toList ∧
      selectExternalLoadBalancerNode cfg = cfg.ExternalLoadBalancer.toList := by
  refine ⟨?_, ?_, ?_⟩
  · cases hb : cfg.BootStrapControlPlane <;>
      simp [selectBootstrapControlPlaneNode, hb]
  · cases hb : cfg.ExternalEtcd <;> simp [selectExternalEtcdNode, hb]
  · cases hb : cfg.ExternalLoadBalancer <;>
      simp [selectExternalLoadBalancerNode, hb]

/-- C10: planning an empty request succeeds with the empty plan for every
registry (the registry is never consulted) and every topology. -/
theorem C10_empty_request (r : actionRegistry) (cfg : derivedConfigData) :
    newExecutionPlan r cfg [] = Except.ok [] := rfl

/-! Lemmas about the expansion phase, for the fan-out and uniqueness claims. -/

/-- Entries produced for one task carry that action index and task index. -/
theorem mem_expandTask {cfg : derivedConfigData} {t : task} {i j : Nat}
    {pt : plannedTask} (h : pt ∈ expandTask cfg t i j) :
    pt.Task = t ∧ pt.actionIndex = i ∧ pt.taskIndex = j ∧
      pt.Node ∈ t.TargetNodes cfg := by
  obtain ⟨n, hn, rfl⟩ := List.mem_map.mp h
  exact ⟨rfl, rfl, rfl, hn⟩

/-- Entries produced for a task list carry the given action index and a task
index at least the starting counter. -/
theorem mem_expandTasks {cfg : derivedConfigData} :
    ∀ {ts : List task} {i j₀ : Nat} {pt : plannedTask},
      pt ∈ expandTasks cfg ts i j₀ → pt.actionIndex = i ∧ j₀ ≤ pt.taskIndex := by
  intro ts
  induction ts with
  | nil => intro i j₀ pt h; exact absurd h (List.not_mem_nil pt)
  | cons t rest ih =>
    intro i j₀ pt h
    rw [expandTasks, List.mem_append] at h
    rcases h with h | h
    · obtain ⟨-, hi, hj, -⟩ := mem_expandTask h
      exact ⟨hi, le_of_eq hj.symm⟩
    · obtain ⟨hi, hj⟩ := ih h
      exact ⟨hi, le_trans (Nat.le_succ j₀) hj⟩

/-- Successful expansion of a name list decomposes into a successful lookup of
the head, a successful expansion of the tail, and the concatenation. -/
theorem expandActions_cons_ok {r : actionRegistry} {cfg : derivedConfigData}
    {name : String} {rest : List String} {i : Nat} {l : List plannedTask}
    (h : expandActions r cfg (name :: rest) i = Except.ok l) :
    ∃ a tail, getAction r name = Except.ok a ∧
      expandActions r cfg rest (i + 1) = Except.ok tail ∧
      l = expandTasks cfg a.Tasks i 0 ++ tail := by
  unfold expandActions at h
  cases hg : getAction r name with
  | error e => rw [hg] at h; exact Except.noConfusion h
  | ok a =>
    rw [hg] at h
    cases he : expandActions r cfg rest (i + 1) with
    | error e => rw [he] at h; exact Except.noConfusion h
    | ok tail =>
      rw [he] at h
      exact ⟨a, tail, rfl, rfl, (Except.ok.inj h).symm⟩

/-- Entries of a successful expansion carry an action index at least the
starting counter. -/
theorem mem_expandActions {r : actionRegistry} {cfg : derivedConfigData} :
    ∀ {names : List String} {i₀ : Nat} {l : List plannedTask} {pt : plannedTask},
      expandActions r cfg names i₀ = Except.ok l → pt ∈ l → i₀ ≤ pt.actionIndex := by
  intro names
  induction names with
  | nil =>
    intro i₀ l pt h hm
    rw [expandActions] at h
    rw [← Except.ok.inj h] at hm
    exact absurd hm (List.not_mem_nil pt)
  | cons name rest ih =>
    intro i₀ l pt h hm
    obtain ⟨a, tail, -, htail, rfl⟩ := expandActions_cons_ok h
    rw [List.mem_append] at hm
    rcases hm with hm | hm
    · exact le_of_eq (mem_expandTasks hm).1.symm
    · exact le_trans (Nat.le_succ i₀) (ih htail hm)

/-- Filtering the expansion of a task list at the position of one of its tasks
returns exactly that task's fan-out. -/
theorem filter_expandTasks_eq (cfg : derivedConfigData) :
    ∀ (ts : List task) (i k j₀ : Nat) (t : task), ts[k]? = some t →
      (expandTasks cfg ts i j₀).filter
          (fun pt => pt.actionIndex == i && pt.taskIndex == (j₀ + k)) =
        expandTask cfg t i (j₀ + k) := by
  intro ts
  induction ts with
  | nil => intro i k j₀ t ht; rw [List.getElem?_nil] at ht; exact Option.noConfusion ht
  | cons t₀ rest ih =>
    intro i k j₀ t ht
    rw [expandTasks, List.filter_append]
    cases k with
    | zero =>
      rw [List.getElem?_cons_zero] at ht
      have ht0 : t = t₀ := (Option.some.inj ht).symm
      subst ht0
      have hself : (expandTask cfg t i j₀).filter
          (fun pt => pt.actionIndex == i && pt.taskIndex == (j₀ + 0)) =
            expandTask cfg t i j₀ := by
        apply List.filter_eq_self.mpr
        intro pt hpt
        obtain ⟨-, hi, hj, -⟩ := mem_expandTask hpt
        rw [Bool.and_eq_true, beq_iff_eq, beq_iff_eq, hi, hj]
        omega
      have hnil : (expandTasks cfg rest i (j₀ + 1)).filter
          (fun pt => pt.actionIndex == i && pt.taskIndex == (j₀ + 0)) = [] := by
        apply List.filter_eq_nil_iff.mpr
        intro pt hpt hcontra
        obtain ⟨-, hj⟩ := mem_expandTasks hpt
        rw [Bool.and_eq_true, beq_iff_eq, beq_iff_eq] at hcontra
        omega
      rw [hself, hnil, List.append_nil]
      rfl
    | succ k' =>
      rw [List.getElem?_cons_succ] at ht
      have hnil : (expandTask cfg t₀ i j₀).filter
          (fun pt => pt.actionIndex == i && pt.taskIndex == (j₀ + (k' + 1))) = [] := by
        apply List.filter_eq_nil_iff.mpr
        intro pt hpt hcontra
        obtain ⟨-, -, hj, -⟩ := mem_expandTask hpt
        rw [Bool.and_eq_true, beq_iff_eq, beq_iff_eq] at hcontra
        omega
      have harith : j₀ + (k' + 1) = (j₀ + 1) + k' := by omega
      rw [hnil, List.nil_append, harith]
      exact ih i k' (j₀ + 1) t ht

/-- Filtering a successful expansion at the position of one task of one action
returns exactly that task's fan-out. -/
theorem filter_expandActions_eq {r : actionRegistry} (cfg : derivedConfigData) :
    ∀ (names : List String) (i₀ k : Nat) (l : List plannedTask)
      (nm : String) (a : action) (j : Nat) (t : task),
      expandActions r cfg names i₀ = Except.ok l →
      names[k]? = some nm → getAction r nm = Except.ok a → a.Tasks[j]? = some t →
      l.filter (fun pt => pt.actionIndex == (i₀ + k) && pt.taskIndex == j) =
        expandTask cfg t (i₀ + k) j := by
  intro names
  induction names with
  | nil =>
    intro i₀ k l nm a j t _ hnm
    rw [List.getElem?_nil] at hnm
    exact absurd hnm (Option.noConfusion)
  | cons name rest ih =>
    intro i₀ k l nm a j t h hnm ha ht
    obtain ⟨a₀, tail, hg₀, htail, rfl⟩ := expandActions_cons_ok h
    rw [List.filter_append]
    cases k with
    | zero =>
      rw [List.getElem?_cons_zero] at hnm
      have hnm0 : name = nm := Option.some.inj hnm
      subst hnm0
      rw [hg₀] at ha
      have ha0 : a₀ = a := Except.ok.inj ha
      subst ha0
      have hhead : (expandTasks cfg a₀.Tasks i₀ 0).filter
          (fun pt => pt.actionIndex == (i₀ + 0) && pt.taskIndex == j) =
            expandTask cfg t (i₀ + 0) j := by
        have := filter_expandTasks_eq cfg a₀.Tasks i₀ j 0 t ht
        have h0j : (0 : Nat) + j = j := Nat.zero_add j
        rw [h0j] at this
        have h00 : i₀ + 0 = i₀ := rfl
        rw [h00]
        exact this
      have hnil : tail.filter
          (fun pt => pt.actionIndex == (i₀ + 0) && pt.taskIndex == j) = [] := by
        apply List.filter_eq_nil_iff.mpr
        intro pt hpt hcontra
        have := mem_expandActions htail hpt
        rw [Bool.and_eq_true, beq_iff_eq, beq_iff_eq] at hcontra
        omega
      rw [hhead, hnil, List.append_nil]
    | succ k' =>
      rw [List.getElem?_cons_succ] at hnm
      have hnil : (expandTasks cfg a₀.Tasks i₀ 0).filter
          (fun pt => pt.actionIndex == (i₀ + (k' + 1)) && pt.taskIndex == j) = [] := by
        apply List.filter_eq_nil_iff.mpr
        intro pt hpt hcontra
        obtain ⟨hi, -⟩ := mem_expandTasks hpt
        rw [Bool.and_eq_true, beq_iff_eq, beq_iff_eq] at hcontra
        omega
      have harith : i₀ + (k' + 1) = (i₀ + 1) + k' := by omega
      rw [hnil, List.nil_append, harith]
      exact ih (i₀ + 1) k' tail nm a j t htail hnm ha ht

/-- C4: in every successful plan, the entries positioned at action index `i`
and task index `j` are, up to the final sort's reordering, exactly one entry
per node returned by that task's selector on the topology, each carrying the
task, the node and the pair `(i, j)`; a selector returning no nodes
contributes no entries (the planning still succeeded). -/
theorem C4_task_fanout
    (r : actionRegistry) (cfg : derivedConfigData) (names : List String)
    (plan : executionPlan) (i j : Nat) (nm : String) (a : action) (t : task)
    (h : newExecutionPlan r cfg names = Except.ok plan)
    (hnm : names[i]? = some nm) (ha : getAction r nm = Except.ok a)
    (ht : a.Tasks[j]? = some t) :
    (plan.filter (fun pt => pt.actionIndex == i && pt.taskIndex == j)).Perm
      ((t.TargetNodes cfg).map fun n =>
        { Node := n, Task := t, actionIndex := i, taskIndex := j }) := by
  obtain ⟨l, hl, hperm⟩ := plan_perm h
  have hf := filter_expandActions_eq cfg names 0 i l nm a j t hl hnm ha ht
  have h0i : (0 : Nat) + i = i := Nat.zero_add i
  rw [h0i] at hf
  exact (hperm.filter _).trans (hf ▸ List.Perm.refl _)

/-- C4 witness: the "init" action's single bootstrap-only task contributes
exactly the one entry for the bootstrap node. -/
theorem C4_witness :
    (wPlan.filter fun pt => pt.actionIndex == 1 && pt.taskIndex == 0).Perm
      ((wTaskBoot.TargetNodes wCfg).map fun n =>
        { Node := n, Task := wTaskBoot, actionIndex := 1, taskIndex := 0 }) :=
  C4_task_fanout wRegistry wCfg ["create", "init"] wPlan 1 0 "init" wActionInit
    wTaskBoot rfl rfl rfl rfl

/-! Injectivity of the composite key, for the uniqueness claim. -/

/-- Digit lists contain no colon. -/
theorem digits_count_colon {l : List Char} (h : ∀ c ∈ l, c.isDigit = true) :
    List.count ':' l = 0 :=
  List.count_eq_zero.mpr (fun hm => (isDigit_ne_space_colon (h ':' hm)).2 rfl)

/-- The suffix of the key following the node name determines where the name
ends: no non-empty shift aligns two such suffixes. -/
theorem key_tail_cancel (t u₁ v₁ u₂ v₂ : List Char)
    (hu₁ : ∀ c ∈ u₁, c.isDigit = true) (hv₁ : ∀ c ∈ v₁, c.isDigit = true)
    (hu₂ : ∀ c ∈ u₂, c.isDigit = true) (hv₂ : ∀ c ∈ v₂, c.isDigit = true)
    (e : sepAction ++ (u₁ ++ (sepTask ++ v₁)) =
      t ++ (sepAction ++ (u₂ ++ (sepTask ++ v₂)))) :
    t = [] := by
  have hcolon : List.count ':' t = 0 := by
    have hc := congrArg (List.count ':') e
    have hA : List.count ':' sepAction = 1 := by decide
    have hT : List.count ':' sepTask = 1 := by decide
    simp only [List.count_append, digits_count_colon hu₁, digits_count_colon hv₁,
      digits_count_colon hu₂, digits_count_colon hv₂, hA, hT] at hc
    omega
  have hnotmem : ':' ∉ t := List.count_eq_zero.mp hcolon
  by_contra hne
  have hlen : 1 ≤ t.length := List.length_pos.mpr hne
  have h14L : (sepAction ++ (u₁ ++ (sepTask ++ v₁)))[14]? = some ':' := by
    rw [List.getElem?_append_left (by decide : (14 : Nat) < sepAction.length)]
    decide
  rw [e] at h14L
  rcases Nat.lt_or_ge 14 t.length with hlt | hge
  · rw [List.getElem?_append_left hlt] at h14L
    exact hnotmem (List.getElem?_mem h14L)
  · rw [List.getElem?_append_right hge] at h14L
    have hk : 14 - t.length < sepAction.length := by
      have : sepAction.length = 16 := by decide
      omega
    rw [List.getElem?_append_left hk] at h14L
    have hfront : ∀ m, m < 14 → sepAction[m]? ≠ some ':' := by decide
    exact hfront (14 - t.length) (by omega) h14L

/-- The trailing index segment of the key determines both indices. -/
theorem key_tail_components {i₁ j₁ i₂ j₂ : Nat}
    (e : sepAction ++ (natDigits i₁ ++ (sepTask ++ natDigits j₁)) =
      sepAction ++ (natDigits i₂ ++ (sepTask ++ natDigits j₂))) :
    i₁ = i₂ ∧ j₁ = j₂ := by
  have e1 := List.append_cancel_left e
  have hsplit : ∀ x : List Char,
      sepTask ++ x = ' ' :: (("- taskIndex: " : String).data ++ x) := fun _ => rfl
  rw [hsplit, hsplit] at e1
  obtain ⟨hi, e2⟩ := digit_run_append_eq _ _ _ _
    (natDigits_digit i₁) (natDigits_digit i₂) e1
  have e3 := List.append_cancel_left e2
  exact ⟨natDigits_inj hi, natDigits_inj e3⟩

/-- Equal composite keys come from equal rank, name, action index and task
index: despite the name being free-form text, the literal segments of the key
let every component be recovered. -/
theorem key_components_eq {p q : plannedTask} (h : p.ExecutionOrder = q.ExecutionOrder) :
    p.Node.ProvisioningOrder = q.Node.ProvisioningOrder ∧
      p.Node.Name = q.Node.Name ∧ p.actionIndex = q.actionIndex ∧
      p.taskIndex = q.taskIndex := by
  have hd : (p.ExecutionOrder).data = (q.ExecutionOrder).data := congrArg String.data h
  rw [executionOrder_data, executionOrder_data] at hd
  have hd1 := List.append_cancel_left hd
  have hsplit : ∀ x : List Char,
      sepName ++ x = ' ' :: (("- Node.Name: " : String).data ++ x) := fun _ => rfl
  rw [hsplit, hsplit] at hd1
  obtain ⟨ho, hd2⟩ := digit_run_append_eq _ _ _ _
    (natDigits_digit p.Node.ProvisioningOrder)
    (natDigits_digit q.Node.ProvisioningOrder) hd1
  have hOrder := natDigits_inj ho
  have hd3 := List.append_cancel_left hd2
  rcases List.append_eq_append_iff.mp hd3 with ⟨t, hqname, htail⟩ | ⟨t, hpname, htail⟩
  · have ht : t = [] := key_tail_cancel t _ _ _ _
      (natDigits_digit p.actionIndex) (natDigits_digit p.taskIndex)
      (natDigits_digit q.actionIndex) (natDigits_digit q.taskIndex) htail
    subst ht
    rw [List.append_nil] at hqname
    rw [List.nil_append] at htail
    obtain ⟨hi, hj⟩ := key_tail_components htail
    exact ⟨hOrder, String.ext hqname.symm, hi, hj⟩
  · have ht : t = [] := key_tail_cancel t _ _ _ _
      (natDigits_digit q.actionIndex) (natDigits_digit q.taskIndex)
      (natDigits_digit p.actionIndex) (natDigits_digit p.taskIndex) htail
    subst ht
    rw [List.append_nil] at hpname
    rw [List.nil_append] at htail
    obtain ⟨hi, hj⟩ := key_tail_components htail.symm
    exact ⟨hOrder, String.ext hpname, hi, hj⟩

/-! Pairwise distinctness of the expansion, for the uniqueness claim. -/

/-- One task's fan-out over nodes with distinct names yields pairwise distinct
entries. -/
theorem pairwise_expandTask {cfg : derivedConfigData} {t : task} {i j : Nat}
    (h : ((t.TargetNodes cfg).map nodeReplica.Name).Nodup) :
    List.Pairwise planDistinct (expandTask cfg t i j) := by
  rw [expandTask, List.pairwise_map]
  have h' : List.Pairwise (fun a b : nodeReplica => a.Name ≠ b.Name)
      (t.TargetNodes cfg) := List.pairwise_map.mp h
  exact h'.imp (fun hne hcon => hne hcon.1)

/-- A task list's expansion consists of pairwise distinct entries when every
selector returns nodes with distinct names. -/
theorem pairwise_expandTasks {cfg : derivedConfigData} (ts : List task) (i : Nat) :
    ∀ j₀ : Nat, (∀ t ∈ ts, ((t.TargetNodes cfg).map nodeReplica.Name).Nodup) →
      List.Pairwise planDistinct (expandTasks cfg ts i j₀) := by
  induction ts with
  | nil => intro j₀ _; exact List.Pairwise.nil
  | cons t rest ih =>
    intro j₀ h
    rw [expandTasks, List.pairwise_append]
    refine ⟨pairwise_expandTask (h t (List.mem_cons_self t rest)),
      ih (j₀ + 1) (fun x hx => h x (List.mem_cons_of_mem t hx)), ?_⟩
    intro x hx y hy
    obtain ⟨-, -, hxj, -⟩ := mem_expandTask hx
    obtain ⟨-, hyj⟩ := mem_expandTasks hy
    intro hcon
    obtain ⟨-, -, hj⟩ := hcon
    omega

/-- A successful expansion consists of pairwise distinct entries when every
selector of every requested action returns nodes with distinct names. -/
theorem pairwise_expandActions {r : actionRegistry} {cfg : derivedConfigData} :
    ∀ {names : List String} {i₀ : Nat} {l : List plannedTask},
      expandActions r cfg names i₀ = Except.ok l →
      (∀ nm ∈ names, ∀ a, getAction r nm = Except.ok a →
        ∀ t ∈ a.Tasks, ((t.TargetNodes cfg).map nodeReplica.Name).Nodup) →
      List.Pairwise planDistinct l := by
  intro names
  induction names with
  | nil =>
    intro i₀ l h _
    rw [expandActions] at h
    rw [← Except.ok.inj h]
    exact List.Pairwise.nil
  | cons name rest ih =>
    intro i₀ l h hnodup
    obtain ⟨a, tail, hg, htail, rfl⟩ := expandActions_cons_ok h
    rw [List.pairwise_append]
    refine ⟨pairwise_expandTasks a.Tasks i₀ 0
        (hnodup name (List.mem_cons_self name rest) a hg),
      ih htail (fun nm hnm => hnodup nm (List.mem_cons_of_mem name hnm)), ?_⟩
    intro x hx y hy
    have hxi := (mem_expandTasks hx).1
    have hyi := mem_expandActions htail hy
    intro hcon
    obtain ⟨-, hi, -⟩ := hcon
    omega

/-- C7: in every successful plan whose requested selectors return nodes with
pairwise distinct names (node names unique within the topology), two entries
at different positions disagree on at least one of rank, name, action index
and task index, and their composite keys differ. -/
theorem C7_key_uniqueness
    (r : actionRegistry) (cfg : derivedConfigData) (names : List String)
    (plan : executionPlan) (h : newExecutionPlan r cfg names = Except.ok plan)
    (hnodup : ∀ nm ∈ names, ∀ a, getAction r nm = Except.ok a →
      ∀ t ∈ a.Tasks, ((t.TargetNodes cfg).map nodeReplica.Name).Nodup)
    (p q : Nat) (hp : p < plan.length) (hq : q < plan.length) (hne : p ≠ q) :
    (plan[p].Node.ProvisioningOrder, plan[p].Node.Name, plan[p].actionIndex,
        plan[p].taskIndex) ≠
      (plan[q].Node.ProvisioningOrder, plan[q].Node.Name, plan[q].actionIndex,
        plan[q].taskIndex) ∧
      plan[p].ExecutionOrder ≠ plan[q].ExecutionOrder := by
  obtain ⟨l, hl, hperm⟩ := plan_perm h
  have hpl : List.Pairwise planDistinct l := pairwise_expandActions hl hnodup
  have hsymm : ∀ {x y : plannedTask}, planDistinct x y → planDistinct y x :=
    fun hxy hcon => hxy ⟨hcon.1.symm, hcon.2.1.symm, hcon.2.2.symm⟩
  have hplan : List.Pairwise planDistinct plan :=
    (hperm.pairwise_iff hsymm).mpr hpl
  have hdist : planDistinct plan[p] plan[q] := by
    rcases Nat.lt_or_ge p q with hlt | hge
    · exact List.pairwise_iff_getElem.mp hplan p q hp hq hlt
    · have hqp : q < p := by omega
      exact hsymm (List.pairwise_iff_getElem.mp hplan q p hq hp hqp)
  constructor
  · intro hcon
    rw [Prod.mk.injEq, Prod.mk.injEq, Prod.mk.injEq] at hcon
    exact hdist ⟨hcon.2.1, hcon.2.2.1, hcon.2.2.2⟩
  · intro hkey
    obtain ⟨-, hn, hi, hj⟩ := key_components_eq hkey
    exact hdist ⟨hn, hi, hj⟩

/-- C7 witness: on the spec section 8 scenario, the two bootstrap-node entries
(positions 0 and 1) differ in their action index and in their composite
keys. -/
theorem C7_witness :
    ((wPlan.get ⟨0, by decide⟩).Node.ProvisioningOrder,
        (wPlan.get ⟨0, by decide⟩).Node.Name,
        (wPlan.get ⟨0, by decide⟩).actionIndex,
        (wPlan.get ⟨0, by decide⟩).taskIndex) ≠
      ((wPlan.get ⟨1, by decide⟩).Node.ProvisioningOrder,
        (wPlan.get ⟨1, by decide⟩).Node.Name,
        (wPlan.get ⟨1, by decide⟩).actionIndex,
        (wPlan.get ⟨1, by decide⟩).taskIndex) ∧
      (wPlan.get ⟨0, by decide⟩).ExecutionOrder ≠
        (wPlan.get ⟨1, by decide⟩).ExecutionOrder :=
  C7_key_uniqueness wRegistry wCfg ["create", "init"] wPlan rfl
    (by
      intro nm hnm a ha t ht
      rcases List.mem_cons.mp hnm with h1 | h1
      · subst h1
        have hred : getAction wRegistry "create" = Except.ok wActionCreate := rfl
        rw [hred] at ha
        have ha' : a = wActionCreate := (Except.ok.inj ha).symm
        subst ha'
        have htasks : wActionCreate.Tasks = [wTaskAll] := rfl
        rw [htasks] at ht
        have ht' : t = wTaskAll := List.mem_singleton.mp ht
        subst ht'
        decide
      · rcases List.mem_cons.mp h1 with h2 | h2
        · subst h2
          have hred : getAction wRegistry "init" = Except.ok wActionInit := rfl
          rw [hred] at ha
          have ha' : a = wActionInit := (Except.ok.inj ha).symm
          subst ha'
          have htasks : wActionInit.Tasks = [wTaskBoot] := rfl
          rw [htasks] at ht
          have ht' : t = wTaskBoot := List.mem_singleton.mp ht
          subst ht'
          decide
        · exact absurd h2 (List.not_mem_nil nm))
    0 1 (by decide) (by decide) (by decide)
